import Mathlib

/-!
Verification of the kata collection in `src/task/10-katas-1-tasks.js`.

The JavaScript source contains five independent functions:
`createCompassPoints`, `expandBraces` (a generator built from the mutually
recursive stateful helpers `getArray` and `getVariants`), and three stubs
(`getZigZagMatrix`, `canDominoesMakeRow`, `extractRanges`) whose bodies
only throw `new Error('Not implemented')`.

Every definition below is a direct shallow embedding of the source:
JS strings become `List Char` (converted to `String` only at the outer
interface), JS numbers used as counters become `Int` where they can go
negative (the `skip` counters) and `Nat` otherwise, the stateful
`current`/`next` objects become a pure syntax tree carrying its cursor
positions, with `next` returning the updated tree, and the generator
becomes the finite list of produced strings.
-/

/-! ### createCompassPoints (source lines 19-70) -/

/-- A compass table entry, `{abbreviation, azimuth}` in the source.
Azimuths are exact multiples of 11.25 degrees, so `ℚ` models the JS
floating point values exactly. -/
structure CompassPoint where
  abbreviation : String
  azimuth : ℚ
  deriving DecidableEq

/-- `const sides = ['N','E','S','W']` (source line 21). -/
def sides : List String := ["N", "E", "S", "W"]

/-- The string stored into `result[pos]` for loop indices `i` and `j`:
`sides[i]` followed, when `j` is nonzero, by the suffix computed on source
lines 48-60. `posi` and `ja` are the locals of source lines 28-29. -/
def abbrevFor (i : Nat) (j : Int) : String :=
  let posi : Nat := (((i : Int) + (if j < 0 then -1 else 1) + 4) % 4).toNat
  let ja : Nat := j.natAbs
  let base := sides.getD i ""
  if j = 0 then base
  else
    base ++
      (if ja % 2 = 1 then
        (if 1 < ja then sides.getD posi "" else "") ++ "b" ++
          (if ja = 3 then sides.getD i "" else sides.getD posi "")
      else
        if ja = 4 then sides.getD posi ""
        else if i % 2 = 1 then sides.getD posi "" ++ sides.getD i ""
        else sides.getD i "" ++ sides.getD posi "")

/-- The values taken by the inner loop variable `j`, i.e. `-fro, ..., fro`
(source line 26). -/
def jRange (fro : Int) : List Int :=
  (List.range (2 * fro.toNat + 1)).map (fun k => (k : Int) - fro)

/-- The abbreviation array built by the double loop of source lines 24-63.
The JS code fills a sparse array; the 32 assignments cover every index
`0..31` exactly once, so starting from 32 empty slots and overwriting via
`List.set` is equivalent. -/
def compassAbbrevs : List String :=
  (List.range 4).foldl (fun res i =>
    let fro : Int := if i % 2 = 1 then 2 else 5
    (jRange fro).foldl (fun res j =>
      res.set (((Int.ofNat i * 8 + j + 32) % 32).toNat) (abbrevFor i j)) res)
    (List.replicate 32 "")

/-- `createCompassPoints` (source line 19): the final
`result.map((v, i) => ({abbreviation: v, azimuth: i * 11.25}))`. -/
def createCompassPoints : List CompassPoint :=
  compassAbbrevs.enum.map (fun p => ⟨p.2, (p.1 : ℚ) * 11.25⟩)

/-! ### The unimplemented stubs (source lines 225-276)

Each of these functions has a body consisting solely of
`throw new Error('Not implemented')`; a thrown error is modelled as
`Except.error` with the error message. -/

/-- `getZigZagMatrix` (source lines 225-227). -/
def getZigZagMatrix (_n : Nat) : Except String (List (List Nat)) :=
  .error "Not implemented"

/-- `canDominoesMakeRow` (source lines 250-252). -/
def canDominoesMakeRow (_dominoes : List (Int × Int)) : Except String Bool :=
  .error "Not implemented"

/-- `extractRanges` (source lines 274-276). -/
def extractRanges (_nums : List Int) : Except String String :=
  .error "Not implemented"

/-! ### expandBraces: the parsed structure (source lines 106-195)

A `getArray` object holds a list `values` whose elements are either plain
strings or `getVariants` objects; a `getVariants` object holds a cursor
`position` and a list of `getArray` branches.  This is the mutual
inductive below: `Arr` is a `getArray` value list, `Value` one of its
elements, and `Branches` the branch list of a `getVariants` object whose
cursor is stored in the `grp` constructor. -/

mutual
inductive Value : Type where
  | lit : List Char → Value
  | grp : Nat → Branches → Value
  deriving DecidableEq
inductive Arr : Type where
  | nil : Arr
  | cons : Value → Arr → Arr
  deriving DecidableEq
inductive Branches : Type where
  | nil : Branches
  | cons : Arr → Branches → Branches
  deriving DecidableEq
end

/-- `values.length` for a branch list. -/
def Branches.length : Branches → Nat
  | .nil => 0
  | .cons _ rest => rest.length + 1

/-! ### The two scanning loops of the parser -/

/-- A token produced by the `getArray` scanning loop (source lines
112-132): either a plain string pushed by `values.push(value)`, or the
contents of a balanced top-level brace group, pushed by
`values.push(new getVariants(value))`. -/
inductive Tok : Type where
  | lit : List Char → Tok
  | grp : List Char → Tok
  deriving DecidableEq

/-- The loop of `getArray` (source lines 109-132), with accumulator
`values`, current fragment `value` and brace counter `skip` (an `Int`:
the JS counter `skip--` can go below zero on unbalanced input).  On `'}'`
the counter is decremented first and the group is closed when it reaches
zero; on `'{'` a pending fragment is pushed when at top level; the final
fragment is pushed when nonempty or when `addEmpty` is set. -/
def scanArr (addEmpty : Bool) : List Tok → List Char → Int → List Char → List Tok
  | values, value, _, [] =>
      values ++ (if value ≠ [] ∨ addEmpty = true then [Tok.lit value] else [])
  | values, value, skip, c :: rest =>
      if c = '\x7d' then
        if skip - 1 = 0 then scanArr addEmpty (values ++ [Tok.grp value]) [] (skip - 1) rest
        else scanArr addEmpty values (value ++ [c]) (skip - 1) rest
      else if c = '\x7b' then
        if skip = 0 then
          scanArr addEmpty (values ++ (if value ≠ [] then [Tok.lit value] else []))
            [] (skip + 1) rest
        else scanArr addEmpty values (value ++ [c]) (skip + 1) rest
      else scanArr addEmpty values (value ++ [c]) skip rest

/-- The loop of `getVariants` (source lines 154-171): split the group
contents at top-level commas (`skip` tracks nested braces), always pushing
the final segment, so the result is never empty. -/
def scanVar : List (List Char) → List Char → Int → List Char → List (List Char)
  | values, value, _, [] => values ++ [value]
  | values, value, skip, c :: rest =>
      if c = ',' ∧ skip = 0 then scanVar (values ++ [value]) [] skip rest
      else
        let skip' := if c = '\x7b' then skip + 1 else if c = '\x7d' then skip - 1 else skip
        scanVar values (value ++ [c]) skip' rest

/-! ### The mutually recursive parser

`new getArray(str, addEmpty)` scans `str` into tokens and builds a
`getVariants` object from each group token; `new getVariants(str)` splits
at top-level commas and builds a `getArray` (with `addEmpty = true`) from
each segment, starting at `position = 0`.  The JS recursion is on strictly
shorter substrings (a group's contents lose the surrounding braces); Lean
needs a syntactic decreasing argument, so the embedding adds a fuel
parameter decremented on every call.  `expandBraces` passes
`(n + 3) * (n + 3)` fuel for an input of length `n`, which strictly
exceeds the length of any call chain: walking the token (or segment) list
of a level costs one unit per step, a level holds at most `n + 1` tokens,
and each nesting level strips at least the two surrounding braces, so the
total chain length is below `(n + 3) * (n + 3)`.  The fuel-exhausted
results are never reached with that budget; they are chosen to be
well-formed (`getVariants` keeps at least one branch, as the JS always
pushes one). -/

mutual
def getArray : Nat → List Char → Bool → Arr
  | 0, _, _ => .nil
  | f + 1, cs, addEmpty => buildArr f (scanArr addEmpty [] [] 0 cs)
def buildArr : Nat → List Tok → Arr
  | _, [] => .nil
  | 0, _ :: _ => .nil
  | f + 1, .lit s :: rest => .cons (.lit s) (buildArr f rest)
  | f + 1, .grp s :: rest => .cons (getVariants f s) (buildArr f rest)
def getVariants : Nat → List Char → Value
  | 0, _ => .grp 0 (.cons .nil .nil)
  | f + 1, cs => .grp 0 (buildBr f (scanVar [] [] 0 cs))
def buildBr : Nat → List (List Char) → Branches
  | _, [] => .nil
  | 0, _ :: _ => .cons .nil .nil
  | f + 1, seg :: rest => .cons (getArray f seg true) (buildBr f rest)
end

/-! ### current and next (source lines 134-150 and 173-186) -/

mutual
/-- `getArray.current` (source lines 134-142): concatenate the plain
strings and, for each `getVariants` element, the current string of its
selected branch. -/
def Arr.current : Arr → List Char
  | .nil => []
  | .cons (.lit s) rest => s ++ Arr.current rest
  | .cons (.grp pos brs) rest => Branches.currentAt pos brs ++ Arr.current rest
/-- `values[position].current()` (source line 174). A fresh parse always
has `position < values.length`, so the out-of-range fallback is never
reached from `expandBraces`. -/
def Branches.currentAt : Nat → Branches → List Char
  | _, .nil => []
  | 0, .cons a _ => Arr.current a
  | n + 1, .cons _ rest => Branches.currentAt n rest
end

mutual
/-- `getArray.next` (source lines 144-150): advance the first
`getVariants` element that still has a successor; elements that report
exhaustion have wrapped back to their first combination.  The
`getVariants.next` logic (source lines 177-186) is inlined in the `grp`
case: first try the selected branch, otherwise move `position` forward,
wrapping to 0 and reporting exhaustion past the last branch. -/
def Arr.next : Arr → Arr × Bool
  | .nil => (.nil, false)
  | .cons (.lit s) rest =>
      let r := Arr.next rest
      (.cons (.lit s) r.1, r.2)
  | .cons (.grp pos brs) rest =>
      let rb := Branches.nextAt pos brs
      if rb.2 then (.cons (.grp pos rb.1) rest, true)
      else if pos + 1 < rb.1.length then (.cons (.grp (pos + 1) rb.1) rest, true)
      else
        let r := Arr.next rest
        (.cons (.grp 0 rb.1) r.1, r.2)
/-- `values[position].next()` (source line 178): advance the branch at the
cursor, leaving the others untouched. -/
def Branches.nextAt : Nat → Branches → Branches × Bool
  | _, .nil => (.nil, false)
  | 0, .cons a rest =>
      let r := Arr.next a
      (.cons r.1 rest, r.2)
  | n + 1, .cons a rest =>
      let r := Branches.nextAt n rest
      (.cons a r.1, r.2)
end

/-! ### Specification-side functions on the parsed structure -/

mutual
/-- The number of combinations described by a value list: literals
contribute a factor 1, a group contributes the sum of the counts of its
branches.  This is the product formula of the specification. -/
def Arr.count : Arr → Nat
  | .nil => 1
  | .cons (.lit _) rest => Arr.count rest
  | .cons (.grp _ brs) rest => Branches.count brs * Arr.count rest
/-- Total alternative count of a branch list (sum of branch counts). -/
def Branches.count : Branches → Nat
  | .nil => 0
  | .cons a rest => Arr.count a + Branches.count rest
end

mutual
/-- The position of the current combination in enumeration order: the
leftmost group is the fastest-moving digit of the odometer. -/
def Arr.idx : Arr → Nat
  | .nil => 0
  | .cons (.lit _) rest => Arr.idx rest
  | .cons (.grp pos brs) rest =>
      Branches.idxAt pos brs + Branches.count brs * Arr.idx rest
/-- Index of a group's current combination: all alternatives of the
branches before the cursor, plus the selected branch's own index. -/
def Branches.idxAt : Nat → Branches → Nat
  | _, .nil => 0
  | 0, .cons a _ => Arr.idx a
  | n + 1, .cons a rest => Arr.count a + Branches.idxAt n rest
end

mutual
/-- All combinations, in enumeration order: the list the generator is
expected to produce from a freshly parsed structure.  For
`cons v rest` the element `v` varies fastest; a group concatenates its
branches' combination lists in branch order. -/
def Arr.combos : Arr → List (List Char)
  | .nil => [[]]
  | .cons (.lit s) rest => (Arr.combos rest).map (fun r => s ++ r)
  | .cons (.grp _ brs) rest =>
      (Arr.combos rest).flatMap (fun r => (Branches.combos brs).map (fun v => v ++ r))
/-- Combination lists of all branches, concatenated in order. -/
def Branches.combos : Branches → List (List Char)
  | .nil => []
  | .cons a rest => Arr.combos a ++ Branches.combos rest
end

/-- Branch at a given position (`Arr.nil` when out of range; reachable
states keep the cursor in range). -/
def Branches.getA : Nat → Branches → Arr
  | _, .nil => .nil
  | 0, .cons a _ => a
  | n + 1, .cons _ rest => Branches.getA n rest

/-- Sum of the counts of the branches strictly before a position. -/
def Branches.prefC : Nat → Branches → Nat
  | _, .nil => 0
  | 0, .cons _ _ => 0
  | n + 1, .cons a rest => Arr.count a + Branches.prefC n rest

mutual
/-- Well-formedness of a reachable state: every group cursor is in range,
every branch is well formed, and every branch other than the selected one
sits at its first combination (branches before the cursor have been
exhausted and have wrapped around; branches after it are untouched). -/
def Arr.ok : Arr → Bool
  | .nil => true
  | .cons (.lit _) rest => Arr.ok rest
  | .cons (.grp pos brs) rest =>
      decide (pos < Branches.length brs) && Branches.okAt pos brs && Arr.ok rest
/-- Branch-list invariant relative to the cursor position. -/
def Branches.okAt : Nat → Branches → Bool
  | _, .nil => true
  | 0, .cons a rest => Arr.ok a && Branches.okInit rest
  | n + 1, .cons a rest => Arr.ok a && decide (Arr.idx a = 0) && Branches.okAt n rest
/-- All branches well formed and at their first combination. -/
def Branches.okInit : Branches → Bool
  | .nil => true
  | .cons a rest => Arr.ok a && decide (Arr.idx a = 0) && Branches.okInit rest
end

/-! ### The generator -/

/-- The `do { yield arr.current() } while (arr.next());` loop of
`expandBraces` (source lines 191-194), with fuel.  `expandBraces` passes
the total combination count, which the enumeration theorems show is
exactly the number of iterations the loop performs. -/
def genFuel : Nat → Arr → List (List Char)
  | 0, _ => []
  | f + 1, a =>
      Arr.current a :: (if (Arr.next a).2 then genFuel f (Arr.next a).1 else [])

/-- Parser fuel budget for an input of length `n`; see the comment on the
parser above. -/
def expandFuel (cs : List Char) : Nat := (cs.length + 3) * (cs.length + 3)

/-- `expandBraces` (source line 106): parse with `new getArray(str, false)`
(source line 189) and enumerate.  The generator's yields are returned as a
list. -/
def expandBraces (s : String) : List String :=
  let a := getArray (expandFuel s.toList) s.toList false
  (genFuel (Arr.count a) a).map String.mk

/-! ### Theorems: the concretely evaluated claims -/

/-- C2: `expandBraces` applied to `"thumbnail.{png,jp{e,}g}"` yields
exactly the three strings `"thumbnail.png"`, `"thumbnail.jpeg"` and
`"thumbnail.jpg"` (in this enumeration order), with no other string and
no repetition. -/
theorem expandBraces_thumbnail :
    expandBraces "thumbnail.\x7bpng,jp\x7be,\x7dg\x7d" =
      ["thumbnail.png", "thumbnail.jpeg", "thumbnail.jpg"] := by
  decide

/-- C4: an empty brace group contributes exactly one empty alternative:
`expandBraces "a{}b"` yields exactly the one string `"ab"`. -/
theorem expandBraces_emptyGroup : expandBraces "a\x7b\x7db" = ["ab"] := by
  decide

/-- C10: `expandBraces` applied to the empty string yields exactly one
string, the empty string (the generator always yields at least once). -/
theorem expandBraces_emptyString : expandBraces "" = [""] := by
  decide

/-- Entry `k` of the compass table pairs the `k`-th abbreviation with the
azimuth `k * 11.25` (rational arithmetic is opaque to kernel reduction, so
this is proved through the indexing lemmas rather than by evaluation). -/
theorem compass_getD (k : Nat) (h : k < 32) :
    createCompassPoints.getD k ⟨"", 0⟩ =
      ⟨compassAbbrevs.getD k "", (k : ℚ) * 11.25⟩ := by
  have hlen : compassAbbrevs.length = 32 := by decide
  have h1 : k < createCompassPoints.length := by
    simpa [createCompassPoints, List.enum_length, hlen] using h
  have h2 : k < compassAbbrevs.length := by omega
  rw [List.getD_eq_getElem?_getD, List.getElem?_eq_getElem h1,
    List.getD_eq_getElem?_getD, List.getElem?_eq_getElem h2]
  simp [createCompassPoints, List.getElem_map, List.getElem_enum]

/-- Helper combining an abbreviation value with an azimuth computation. -/
theorem compass_entry_eq (k : Nat) (h : k < 32) (name : String) (az : ℚ)
    (hname : compassAbbrevs.getD k "" = name) (haz : (k : ℚ) * 11.25 = az) :
    createCompassPoints.getD k ⟨"", 0⟩ = ⟨name, az⟩ := by
  rw [compass_getD k h, hname, haz]

/-- C5: `createCompassPoints` returns 32 entries, entry `i` has azimuth
`i * 11.25`, the four cardinal points sit at indices 0, 8, 16 and 24 with
azimuths 0, 90, 180 and 270, and the last entry has azimuth 348.75. -/
theorem createCompassPoints_table :
    createCompassPoints.length = 32 ∧
    createCompassPoints.map CompassPoint.azimuth =
      (List.range 32).map (fun i : ℕ => (i : ℚ) * 11.25) ∧
    createCompassPoints.getD 0 ⟨"", 0⟩ = ⟨"N", 0⟩ ∧
    createCompassPoints.getD 8 ⟨"", 0⟩ = ⟨"E", 90⟩ ∧
    createCompassPoints.getD 16 ⟨"", 0⟩ = ⟨"S", 180⟩ ∧
    createCompassPoints.getD 24 ⟨"", 0⟩ = ⟨"W", 270⟩ ∧
    (createCompassPoints.getD 31 ⟨"", 0⟩).azimuth = 348.75 := by
  have hlen : compassAbbrevs.length = 32 := by decide
  have hlen2 : createCompassPoints.length = 32 := by
    simp [createCompassPoints, List.enum_length, hlen]
  refine ⟨hlen2, ?_, ?_, ?_, ?_, ?_, ?_⟩
  · apply List.ext_getElem
    · simp [hlen2]
    · intro i h1 h2
      simp [createCompassPoints, List.getElem_map, List.getElem_enum,
        List.getElem_range]
  · exact compass_entry_eq 0 (by omega) _ _ (by decide) (by norm_num)
  · exact compass_entry_eq 8 (by omega) _ _ (by decide) (by norm_num)
  · exact compass_entry_eq 16 (by omega) _ _ (by decide) (by norm_num)
  · exact compass_entry_eq 24 (by omega) _ _ (by decide) (by norm_num)
  · rw [compass_getD 31 (by omega)]
    norm_num

/-- C6 counterexample: the claimed name table is false on the code. The
code places `"NNE"` at index 2 (index 4 is `"NE"`) and `"NEbN"` at index
3 (index 5 is `"NEbE"`), so the claimed conjunction fails. -/
theorem compass_names_claim_false :
    ¬ ((createCompassPoints.getD 1 ⟨"", 0⟩).abbreviation = "NbE" ∧
       (createCompassPoints.getD 4 ⟨"", 0⟩).abbreviation = "NNE" ∧
       (createCompassPoints.getD 5 ⟨"", 0⟩).abbreviation = "NEbN" ∧
       (createCompassPoints.getD 6 ⟨"", 0⟩).abbreviation ≠ "NEbE") := by
  decide

/-- C6 amended: in the returned array, index 1 is `"NbE"`, index 2 is
`"NNE"`, index 3 is `"NEbN"`, index 4 is `"NE"`, index 5 is `"NEbE"`, and
index 6 is `"ENE"` (so index 6 indeed does not carry `"NEbE"`), matching
the standard 32-point table. -/
theorem compass_names :
    (createCompassPoints.getD 1 ⟨"", 0⟩).abbreviation = "NbE" ∧
    (createCompassPoints.getD 2 ⟨"", 0⟩).abbreviation = "NNE" ∧
    (createCompassPoints.getD 3 ⟨"", 0⟩).abbreviation = "NEbN" ∧
    (createCompassPoints.getD 4 ⟨"", 0⟩).abbreviation = "NE" ∧
    (createCompassPoints.getD 5 ⟨"", 0⟩).abbreviation = "NEbE" ∧
    (createCompassPoints.getD 6 ⟨"", 0⟩).abbreviation = "ENE" ∧
    (createCompassPoints.getD 6 ⟨"", 0⟩).abbreviation ≠ "NEbE" := by
  refine ⟨by decide, by decide, by decide, by decide, by decide, by decide, by decide⟩

/-- C7: the three kata stubs reject every input with the error
`"Not implemented"` and never return a value. -/
theorem stubs_not_implemented :
    (∀ n : Nat, getZigZagMatrix n = Except.error "Not implemented") ∧
    (∀ ds : List (Int × Int), canDominoesMakeRow ds = Except.error "Not implemented") ∧
    (∀ ns : List Int, extractRanges ns = Except.error "Not implemented") :=
  ⟨fun _ => rfl, fun _ => rfl, fun _ => rfl⟩

/-- C8: against its own documented example table (`n = 1` should give
`[[0]]`), `getZigZagMatrix 1` throws `"Not implemented"` instead of
returning a matrix. -/
theorem getZigZagMatrix_one_throws :
    getZigZagMatrix 1 = Except.error "Not implemented" := rfl

/-! ### Structural lemmas about the cursor invariant -/

/-- `prefC 0` is always zero. -/
theorem Branches.prefC_zero (brs : Branches) : Branches.prefC 0 brs = 0 := by
  cases brs <;> rfl

/-- A fully initial branch list satisfies the cursor invariant at any
position. -/
theorem Branches.okInit_okAt : ∀ (q : Nat) (brs : Branches),
    Branches.okInit brs = true → Branches.okAt q brs = true := by
  intro q brs h
  match q, brs with
  | q, .nil => cases q <;> rfl
  | 0, .cons a rest =>
    simp only [Branches.okInit, Bool.and_eq_true, decide_eq_true_eq] at h
    simp [Branches.okAt, h.1.1, h.2]
  | n + 1, .cons a rest =>
    simp only [Branches.okInit, Bool.and_eq_true, decide_eq_true_eq] at h
    simp [Branches.okAt, h.1.1, h.1.2, Branches.okInit_okAt n rest h.2]

/-- Every branch of a fully initial branch list is well formed and at
index 0 (out-of-range positions give the empty list, which is initial). -/
theorem Branches.okInit_getA : ∀ (q : Nat) (brs : Branches),
    Branches.okInit brs = true →
    Arr.ok (Branches.getA q brs) = true ∧ Arr.idx (Branches.getA q brs) = 0 := by
  intro q brs h
  match q, brs with
  | q, .nil => cases q <;> exact ⟨rfl, rfl⟩
  | 0, .cons a rest =>
    simp only [Branches.okInit, Bool.and_eq_true, decide_eq_true_eq] at h
    exact ⟨h.1.1, h.1.2⟩
  | n + 1, .cons a rest =>
    simp only [Branches.okInit, Bool.and_eq_true, decide_eq_true_eq] at h
    exact Branches.okInit_getA n rest h.2

/-- On a fully initial branch list the cursor index at any position is the
prefix count. -/
theorem Branches.idxAt_of_okInit : ∀ (q : Nat) (brs : Branches),
    Branches.okInit brs = true →
    Branches.idxAt q brs = Branches.prefC q brs := by
  intro q brs h
  match q, brs with
  | q, .nil => cases q <;> rfl
  | 0, .cons a rest =>
    simp only [Branches.okInit, Bool.and_eq_true, decide_eq_true_eq] at h
    simpa [Branches.idxAt, Branches.prefC] using h.1.2
  | n + 1, .cons a rest =>
    simp only [Branches.okInit, Bool.and_eq_true, decide_eq_true_eq] at h
    simp [Branches.idxAt, Branches.prefC, Branches.idxAt_of_okInit n rest h.2]

/-- The cursor index decomposes as prefix count plus the selected branch's
own index. -/
theorem Branches.idxAt_eq : ∀ (q : Nat) (brs : Branches),
    Branches.idxAt q brs = Branches.prefC q brs + Arr.idx (Branches.getA q brs) := by
  intro q brs
  match q, brs with
  | q, .nil => cases q <;> rfl
  | 0, .cons a rest => simp [Branches.idxAt, Branches.prefC, Branches.getA]
  | n + 1, .cons a rest =>
    simp [Branches.idxAt, Branches.prefC, Branches.getA,
      Branches.idxAt_eq n rest]
    omega

/-- The selected branch of an invariant-satisfying branch list is well
formed. -/
theorem Branches.okAt_getA_ok : ∀ (q : Nat) (brs : Branches),
    Branches.okAt q brs = true → Arr.ok (Branches.getA q brs) = true := by
  intro q brs h
  match q, brs with
  | q, .nil => cases q <;> rfl
  | 0, .cons a rest =>
    simp only [Branches.okAt, Bool.and_eq_true] at h
    exact h.1
  | n + 1, .cons a rest =>
    simp only [Branches.okAt, Bool.and_eq_true, decide_eq_true_eq] at h
    exact Branches.okAt_getA_ok n rest h.2

/-- Branches strictly after the cursor are well formed and at index 0. -/
theorem Branches.okAt_getA_gt : ∀ (q r : Nat) (brs : Branches),
    Branches.okAt q brs = true → q < r →
    Arr.ok (Branches.getA r brs) = true ∧ Arr.idx (Branches.getA r brs) = 0 := by
  intro q r brs h hqr
  match q, r, brs with
  | q, r, .nil => cases r <;> exact ⟨rfl, rfl⟩
  | 0, r, .cons a rest =>
    simp only [Branches.okAt, Bool.and_eq_true] at h
    match r, hqr with
    | k + 1, _ => exact Branches.okInit_getA k rest h.2
  | n + 1, r, .cons a rest =>
    simp only [Branches.okAt, Bool.and_eq_true, decide_eq_true_eq] at h
    match r, hqr with
    | k + 1, hqr => exact Branches.okAt_getA_gt n k rest h.2 (by omega)

/-- Prefix counts are bounded by the total count. -/
theorem Branches.prefC_le : ∀ (q : Nat) (brs : Branches),
    Branches.prefC q brs ≤ Branches.count brs := by
  intro q brs
  match q, brs with
  | q, .nil => cases q <;> simp [Branches.prefC, Branches.count]
  | 0, .cons a rest => simp [Branches.prefC]
  | n + 1, .cons a rest =>
    simp only [Branches.prefC, Branches.count]
    have := Branches.prefC_le n rest
    omega

/-- Stepping the prefix count past an in-range position adds that branch's
count. -/
theorem Branches.prefC_succ : ∀ (q : Nat) (brs : Branches),
    q < Branches.length brs →
    Branches.prefC (q + 1) brs =
      Branches.prefC q brs + Arr.count (Branches.getA q brs) := by
  intro q brs h
  match q, brs with
  | q, .nil => simp [Branches.length] at h
  | 0, .cons a rest => simp [Branches.prefC, Branches.getA, Branches.prefC_zero]
  | n + 1, .cons a rest =>
    simp only [Branches.length, Nat.add_lt_add_iff_right] at h
    simp [Branches.prefC, Branches.getA, Branches.prefC_succ n rest h]
    omega

/-- The prefix count over the whole list is the total count. -/
theorem Branches.prefC_length : ∀ brs : Branches,
    Branches.prefC (Branches.length brs) brs = Branches.count brs := by
  intro brs
  match brs with
  | .nil => rfl
  | .cons a rest =>
    simp [Branches.length, Branches.prefC, Branches.count,
      Branches.prefC_length rest]

/-- An in-range prefix count plus the selected branch's count stays within
the total count. -/
theorem Branches.prefC_getA_le (q : Nat) (brs : Branches)
    (h : q < Branches.length brs) :
    Branches.prefC q brs + Arr.count (Branches.getA q brs) ≤ Branches.count brs := by
  rw [← Branches.prefC_succ q brs h]
  exact Branches.prefC_le (q + 1) brs

/-! ### Counts are positive and indices in range on reachable states -/

mutual
/-- A well-formed value list has at least one combination. -/
theorem Arr.count_pos : ∀ a : Arr, Arr.ok a = true → 1 ≤ Arr.count a := by
  intro a hok
  match a with
  | .nil => exact le_refl 1
  | .cons (.lit s) rest =>
    exact Arr.count_pos rest hok
  | .cons (.grp pos brs) rest =>
    simp only [Arr.ok, Bool.and_eq_true, decide_eq_true_eq] at hok
    have h1 := Branches.count_pos_at pos brs hok.1.2 (by
      have := hok.1.1
      omega)
    have h2 := Arr.count_pos rest hok.2
    simp only [Arr.count]
    exact Nat.mul_pos h1 h2
/-- A nonempty branch list satisfying the invariant has positive total
count. -/
theorem Branches.count_pos_at : ∀ (q : Nat) (brs : Branches),
    Branches.okAt q brs = true → 0 < Branches.length brs →
    1 ≤ Branches.count brs := by
  intro q brs h hlen
  match q, brs with
  | _, .nil => simp [Branches.length] at hlen
  | 0, .cons a rest =>
    simp only [Branches.okAt, Bool.and_eq_true] at h
    have := Arr.count_pos a h.1
    simp only [Branches.count]
    omega
  | n + 1, .cons a rest =>
    simp only [Branches.okAt, Bool.and_eq_true, decide_eq_true_eq] at h
    have := Arr.count_pos a h.1.1
    simp only [Branches.count]
    omega
end

mutual
/-- On a well-formed state the enumeration index is strictly below the
combination count. -/
theorem Arr.idx_lt : ∀ a : Arr, Arr.ok a = true → Arr.idx a < Arr.count a := by
  intro a hok
  match a with
  | .nil => exact Nat.zero_lt_one
  | .cons (.lit s) rest => exact Arr.idx_lt rest hok
  | .cons (.grp pos brs) rest =>
    simp only [Arr.ok, Bool.and_eq_true, decide_eq_true_eq] at hok
    have h1 := Branches.idxAt_lt pos brs hok.1.2 hok.1.1
    have h2 := Arr.idx_lt rest hok.2
    simp only [Arr.idx, Arr.count]
    have h3 : Branches.count brs * (Arr.idx rest + 1) ≤
        Branches.count brs * Arr.count rest := mul_le_mul_left' (by omega) _
    have h4 : Branches.count brs * (Arr.idx rest + 1) =
        Branches.count brs * Arr.idx rest + Branches.count brs := by ring
    omega
/-- On an invariant-satisfying branch list with the cursor in range, the
cursor index is strictly below the total count. -/
theorem Branches.idxAt_lt : ∀ (q : Nat) (brs : Branches),
    Branches.okAt q brs = true → q < Branches.length brs →
    Branches.idxAt q brs < Branches.count brs := by
  intro q brs h hlen
  match q, brs with
  | _, .nil => simp [Branches.length] at hlen
  | 0, .cons a rest =>
    simp only [Branches.okAt, Bool.and_eq_true] at h
    have := Arr.idx_lt a h.1
    simp only [Branches.idxAt, Branches.count]
    omega
  | n + 1, .cons a rest =>
    simp only [Branches.okAt, Bool.and_eq_true, decide_eq_true_eq] at h
    have := Branches.idxAt_lt n rest h.2 (by
      simpa [Branches.length, Nat.add_lt_add_iff_right] using hlen)
    simp only [Branches.idxAt, Branches.count]
    omega
end

/-! ### The odometer theorem: `next` advances the enumeration index

`next` preserves well-formedness, the combination count and the
combination list, reports `true` exactly when a further combination
exists, and either increments the enumeration index or resets the
structure to its first combination. -/

mutual
theorem Arr.next_spec : ∀ a : Arr, Arr.ok a = true →
    Arr.ok (Arr.next a).1 = true ∧
    Arr.count (Arr.next a).1 = Arr.count a ∧
    Arr.combos (Arr.next a).1 = Arr.combos a ∧
    (Arr.next a).2 = decide (Arr.idx a + 1 < Arr.count a) ∧
    Arr.idx (Arr.next a).1 =
      (if Arr.idx a + 1 < Arr.count a then Arr.idx a + 1 else 0) := by
  intro a hok
  match a with
  | .nil =>
    simp [Arr.next, Arr.ok, Arr.idx, Arr.count, Arr.combos]
  | .cons (.lit s) rest =>
    have hrest : Arr.ok rest = true := by simpa [Arr.ok] using hok
    have ih := Arr.next_spec rest hrest
    have hnext : Arr.next (.cons (.lit s) rest) =
        (.cons (.lit s) (Arr.next rest).1, (Arr.next rest).2) := by
      simp [Arr.next]
    rw [hnext]
    refine ⟨?_, ?_, ?_, ?_, ?_⟩
    · simpa [Arr.ok] using ih.1
    · simp [Arr.count, ih.2.1]
    · simp [Arr.combos, ih.2.2.1]
    · simpa [Arr.idx, Arr.count] using ih.2.2.2.1
    · simpa [Arr.idx, Arr.count] using ih.2.2.2.2
  | .cons (.grp pos brs) rest =>
    simp only [Arr.ok, Bool.and_eq_true, decide_eq_true_eq] at hok
    obtain ⟨⟨hpos, hokAt⟩, hrest⟩ := hok
    obtain ⟨hlen, hcnt, hcmb, hpref, hbool, hif⟩ :=
      Branches.nextAt_spec pos brs hokAt hpos
    have hIeq := Branches.idxAt_eq pos brs
    have hgok := Branches.okAt_getA_ok pos brs hokAt
    have hglt := Arr.idx_lt (Branches.getA pos brs) hgok
    have hPG := Branches.prefC_getA_le pos brs hpos
    have hrlt := Arr.idx_lt rest hrest
    have hcB := Branches.count_pos_at pos brs hokAt (by omega)
    have hrc := Arr.count_pos rest hrest
    have hmul2 : Branches.count brs * (Arr.idx rest + 1) =
        Branches.count brs * Arr.idx rest + Branches.count brs := by ring
    have hmul1 : Branches.count brs * (Arr.idx rest + 1) ≤
        Branches.count brs * Arr.count rest := mul_le_mul_left' (by omega) _
    by_cases hc : Branches.idxAt pos brs + 1 <
        Branches.prefC pos brs + Arr.count (Branches.getA pos brs)
    · -- the selected branch advanced
      rw [if_pos hc] at hif
      obtain ⟨hokAt', hidx'⟩ := hif
      have hb2 : (Branches.nextAt pos brs).2 = true := by rw [hbool]; simp [hc]
      have hnext : Arr.next (.cons (.grp pos brs) rest) =
          (.cons (.grp pos (Branches.nextAt pos brs).1) rest, true) := by
        simp [Arr.next, hb2]
      have hlt2 : Arr.idx (.cons (.grp pos brs) rest) + 1 <
          Arr.count (.cons (.grp pos brs) rest) := by
        simp only [Arr.idx, Arr.count]
        omega
      rw [hnext]
      refine ⟨?_, ?_, ?_, ?_, ?_⟩
      · simp only [Arr.ok, Bool.and_eq_true, decide_eq_true_eq]
        exact ⟨⟨by omega, hokAt'⟩, hrest⟩
      · simp [Arr.count, hcnt]
      · simp [Arr.combos, hcmb]
      · simp [hlt2]
      · rw [if_pos hlt2]
        simp only [Arr.idx, hidx', hcnt]
        omega
    · -- the selected branch was exhausted and has been reset
      rw [if_neg hc] at hif
      obtain ⟨hini, hidxP⟩ := hif
      have hb2 : (Branches.nextAt pos brs).2 = false := by rw [hbool]; simp [hc]
      by_cases hp2 : pos + 1 < Branches.length (Branches.nextAt pos brs).1
      · -- the cursor moves to the next branch
        have hplen : pos + 1 < Branches.length brs := by rw [hlen] at hp2; exact hp2
        have hnext : Arr.next (.cons (.grp pos brs) rest) =
            (.cons (.grp (pos + 1) (Branches.nextAt pos brs).1) rest, true) := by
          simp [Arr.next, hb2, hp2]
        have h6 := Branches.okAt_getA_gt pos (pos + 1) brs hokAt (Nat.lt_succ_self pos)
        have h7 := Arr.count_pos _ h6.1
        have h8 := Branches.prefC_getA_le (pos + 1) brs hplen
        have h9 := Branches.prefC_succ pos brs hpos
        have hIdo : Branches.idxAt (pos + 1) (Branches.nextAt pos brs).1 =
            Branches.prefC (pos + 1) brs := by
          rw [Branches.idxAt_of_okInit _ _ hini, hpref]
        have hlt2 : Arr.idx (.cons (.grp pos brs) rest) + 1 <
            Arr.count (.cons (.grp pos brs) rest) := by
          simp only [Arr.idx, Arr.count]
          omega
        rw [hnext]
        refine ⟨?_, ?_, ?_, ?_, ?_⟩
        · simp only [Arr.ok, Bool.and_eq_true, decide_eq_true_eq]
          exact ⟨⟨hp2, Branches.okInit_okAt _ _ hini⟩, hrest⟩
        · simp [Arr.count, hcnt]
        · simp [Arr.combos, hcmb]
        · simp [hlt2]
        · rw [if_pos hlt2]
          simp only [Arr.idx, hIdo, hcnt]
          omega
      · -- the group wraps to its first branch and the tail advances
        have ihR := Arr.next_spec rest hrest
        obtain ⟨hRok, hRcnt, hRcmb, hRbool, hRidx⟩ := ihR
        have hnext : Arr.next (.cons (.grp pos brs) rest) =
            (.cons (.grp 0 (Branches.nextAt pos brs).1) (Arr.next rest).1,
              (Arr.next rest).2) := by
          simp [Arr.next, hb2, hp2]
        have hple : pos + 1 = Branches.length brs := by rw [hlen] at hp2; omega
        have hPcB : Branches.prefC pos brs + Arr.count (Branches.getA pos brs) =
            Branches.count brs := by
          rw [← Branches.prefC_succ pos brs hpos, hple, Branches.prefC_length]
        have hidxz : Branches.idxAt 0 (Branches.nextAt pos brs).1 = 0 := by
          rw [Branches.idxAt_of_okInit _ _ hini, Branches.prefC_zero]
        have hiff : (Arr.idx (.cons (.grp pos brs) rest) + 1 <
            Arr.count (.cons (.grp pos brs) rest)) ↔
            (Arr.idx rest + 1 < Arr.count rest) := by
          simp only [Arr.idx, Arr.count]
          constructor
          · intro h
            by_contra hneg
            have hge : Arr.count rest ≤ Arr.idx rest + 1 := by omega
            have := mul_le_mul_left' hge (Branches.count brs)
            omega
          · intro h
            have := mul_lt_mul_of_pos_left h (show 0 < Branches.count brs by omega)
            omega
        rw [hnext]
        refine ⟨?_, ?_, ?_, ?_, ?_⟩
        · simp only [Arr.ok, Bool.and_eq_true, decide_eq_true_eq]
          exact ⟨⟨by omega, Branches.okInit_okAt _ _ hini⟩, hRok⟩
        · simp [Arr.count, hcnt, hRcnt]
        · simp [Arr.combos, hcmb, hRcmb]
        · rw [hRbool]
          exact decide_eq_decide.mpr hiff.symm
        · by_cases hir : Arr.idx rest + 1 < Arr.count rest
          · rw [if_pos (hiff.mpr hir), if_pos hir] at *
            simp only [Arr.idx, hidxz, hcnt, hRidx]
            omega
          · rw [if_neg (fun h => hir (hiff.mp h))]
            rw [if_neg hir] at hRidx
            simp only [Arr.idx, hidxz, hcnt, hRidx]
            omega
theorem Branches.nextAt_spec : ∀ (pos : Nat) (brs : Branches),
    Branches.okAt pos brs = true → pos < Branches.length brs →
    Branches.length (Branches.nextAt pos brs).1 = Branches.length brs ∧
    Branches.count (Branches.nextAt pos brs).1 = Branches.count brs ∧
    Branches.combos (Branches.nextAt pos brs).1 = Branches.combos brs ∧
    (∀ q, Branches.prefC q (Branches.nextAt pos brs).1 = Branches.prefC q brs) ∧
    (Branches.nextAt pos brs).2 =
      decide (Branches.idxAt pos brs + 1 <
        Branches.prefC pos brs + Arr.count (Branches.getA pos brs)) ∧
    (if Branches.idxAt pos brs + 1 <
        Branches.prefC pos brs + Arr.count (Branches.getA pos brs)
     then Branches.okAt pos (Branches.nextAt pos brs).1 = true ∧
          Branches.idxAt pos (Branches.nextAt pos brs).1 =
            Branches.idxAt pos brs + 1
     else Branches.okInit (Branches.nextAt pos brs).1 = true ∧
          Branches.idxAt pos (Branches.nextAt pos brs).1 =
            Branches.prefC pos brs) := by
  intro pos brs hokAt hlen
  match pos, brs with
  | _, .nil => simp [Branches.length] at hlen
  | 0, .cons a rest =>
    simp only [Branches.okAt, Bool.and_eq_true] at hokAt
    obtain ⟨ha, hini⟩ := hokAt
    have ihA := Arr.next_spec a ha
    obtain ⟨hAok, hAcnt, hAcmb, hAbool, hAidx⟩ := ihA
    have hnext : Branches.nextAt 0 (.cons a rest) =
        (.cons (Arr.next a).1 rest, (Arr.next a).2) := by
      simp [Branches.nextAt]
    rw [hnext]
    have hcond : (Branches.idxAt 0 (.cons a rest) + 1 <
        Branches.prefC 0 (.cons a rest) +
          Arr.count (Branches.getA 0 (.cons a rest))) ↔
        (Arr.idx a + 1 < Arr.count a) := by
      simp [Branches.idxAt, Branches.prefC, Branches.getA]
    refine ⟨?_, ?_, ?_, ?_, ?_, ?_⟩
    · simp [Branches.length]
    · simp [Branches.count, hAcnt]
    · simp [Branches.combos, hAcmb]
    · intro q
      cases q with
      | zero => simp [Branches.prefC]
      | succ n => simp [Branches.prefC, hAcnt]
    · rw [hAbool]
      exact decide_eq_decide.mpr hcond.symm
    · by_cases hc : Arr.idx a + 1 < Arr.count a
      · rw [if_pos (hcond.mpr hc), if_pos hc] at *
        constructor
        · simp only [Branches.okAt, Bool.and_eq_true]
          exact ⟨hAok, hini⟩
        · simp [Branches.idxAt, hAidx, if_pos hc]
      · rw [if_neg (fun h => hc (hcond.mp h))]
        rw [if_neg hc] at hAidx
        constructor
        · simp only [Branches.okInit, Bool.and_eq_true, decide_eq_true_eq]
          exact ⟨⟨hAok, hAidx⟩, hini⟩
        · simp [Branches.idxAt, hAidx, Branches.prefC]
  | n + 1, .cons a rest =>
    simp only [Branches.okAt, Bool.and_eq_true, decide_eq_true_eq] at hokAt
    obtain ⟨⟨ha, haz⟩, hAt⟩ := hokAt
    have hlen2 : n < Branches.length rest := by
      simpa [Branches.length, Nat.add_lt_add_iff_right] using hlen
    have ihB := Branches.nextAt_spec n rest hAt hlen2
    obtain ⟨hBlen, hBcnt, hBcmb, hBpref, hBbool, hBif⟩ := ihB
    have hnext : Branches.nextAt (n + 1) (.cons a rest) =
        (.cons a (Branches.nextAt n rest).1, (Branches.nextAt n rest).2) := by
      simp [Branches.nextAt]
    rw [hnext]
    have hcond : (Branches.idxAt (n + 1) (.cons a rest) + 1 <
        Branches.prefC (n + 1) (.cons a rest) +
          Arr.count (Branches.getA (n + 1) (.cons a rest))) ↔
        (Branches.idxAt n rest + 1 <
          Branches.prefC n rest + Arr.count (Branches.getA n rest)) := by
      simp only [Branches.idxAt, Branches.prefC, Branches.getA]
      omega
    refine ⟨?_, ?_, ?_, ?_, ?_, ?_⟩
    · simp [Branches.length, hBlen]
    · simp [Branches.count, hBcnt]
    · simp [Branches.combos, hBcmb]
    · intro q
      cases q with
      | zero => simp [Branches.prefC]
      | succ m => simp [Branches.prefC, hBpref m]
    · rw [hBbool]
      exact decide_eq_decide.mpr hcond.symm
    · by_cases hc : Branches.idxAt n rest + 1 <
          Branches.prefC n rest + Arr.count (Branches.getA n rest)
      · rw [if_pos (hcond.mpr hc)]
        rw [if_pos hc] at hBif
        constructor
        · simp only [Branches.okAt, Bool.and_eq_true, decide_eq_true_eq]
          exact ⟨⟨ha, haz⟩, hBif.1⟩
        · simp only [Branches.idxAt, hBif.2]
          omega
      · rw [if_neg (fun h => hc (hcond.mp h))]
        rw [if_neg hc] at hBif
        constructor
        · simp only [Branches.okInit, Bool.and_eq_true, decide_eq_true_eq]
          exact ⟨⟨ha, haz⟩, hBif.1⟩
        · simp only [Branches.idxAt, Branches.prefC, hBif.2]
end

/-! ### List indexing helpers -/

/-- Length of the cross-product-shaped `flatMap`. -/
theorem length_flatMap_map {α β γ : Type} (ys : List α) (xs : List β) (g : α → β → γ) :
    (ys.flatMap fun r => xs.map (g r)).length = ys.length * xs.length := by
  induction ys with
  | nil => simp
  | cons y ys ih =>
    simp only [List.flatMap_cons, List.length_append, List.length_map,
      List.length_cons, ih]
    ring

/-- `getD` through an append, left part. -/
theorem getD_append_of_lt {α : Type} (l₁ l₂ : List α) (d : α) (i : Nat)
    (h : i < l₁.length) : (l₁ ++ l₂).getD i d = l₁.getD i d := by
  rw [List.getD_eq_getElem?_getD, List.getD_eq_getElem?_getD,
    List.getElem?_append_left h]

/-- `getD` through an append, right part. -/
theorem getD_append_add {α : Type} (l₁ l₂ : List α) (d : α) (k : Nat) :
    (l₁ ++ l₂).getD (l₁.length + k) d = l₂.getD k d := by
  rw [List.getD_eq_getElem?_getD, List.getD_eq_getElem?_getD,
    List.getElem?_append_right (by omega)]
  have h : l₁.length + k - l₁.length = k := by omega
  rw [h]

/-- `getD` through a `map` that prepends a fixed prefix. -/
theorem getD_map_append (s : List Char) (xs : List (List Char)) (i : Nat)
    (hi : i < xs.length) :
    (xs.map (fun r => s ++ r)).getD i [] = s ++ xs.getD i [] := by
  rw [List.getD_eq_getElem?_getD, List.getD_eq_getElem?_getD,
    List.getElem?_eq_getElem (by simpa using hi), List.getElem?_eq_getElem hi]
  simp

/-- `getD` through a `map` that appends a fixed suffix. -/
theorem getD_map_append2 (s : List Char) (xs : List (List Char)) (i : Nat)
    (hi : i < xs.length) :
    (xs.map (fun v => v ++ s)).getD i [] = xs.getD i [] ++ s := by
  rw [List.getD_eq_getElem?_getD, List.getD_eq_getElem?_getD,
    List.getElem?_eq_getElem (by simpa using hi), List.getElem?_eq_getElem hi]
  simp

/-- Indexing into the cross-product `flatMap` with a mixed-radix index:
position `i + |xs| * j` holds `xs[i] ++ ys[j]`. -/
theorem getD_flatMap_map (ys xs : List (List Char)) (i j : Nat)
    (hi : i < xs.length) (hj : j < ys.length) :
    (ys.flatMap fun r => xs.map (fun v => v ++ r)).getD (i + xs.length * j) [] =
      xs.getD i [] ++ ys.getD j [] := by
  induction ys generalizing j with
  | nil => simp at hj
  | cons y ys ih =>
    cases j with
    | zero =>
      simp only [List.flatMap_cons, Nat.mul_zero, Nat.add_zero]
      rw [getD_append_of_lt _ _ _ _ (by simpa using hi), getD_map_append2 _ _ _ hi]
      rfl
    | succ j =>
      have hidx : i + xs.length * (j + 1) =
          (xs.map (fun v => v ++ y)).length + (i + xs.length * j) := by
        simp [List.length_map]
        ring
      simp only [List.flatMap_cons, hidx]
      rw [getD_append_add]
      rw [ih j (by simpa using hj)]
      rfl

/-! ### The combination list has exactly `count` elements -/

mutual
theorem Arr.combos_length : ∀ a : Arr, (Arr.combos a).length = Arr.count a := by
  intro a
  match a with
  | .nil => rfl
  | .cons (.lit s) rest =>
    simp [Arr.combos, Arr.count, Arr.combos_length rest]
  | .cons (.grp pos brs) rest =>
    simp only [Arr.combos, Arr.count, length_flatMap_map,
      Arr.combos_length rest, Branches.combosB_length brs]
    ring
theorem Branches.combosB_length : ∀ brs : Branches,
    (Branches.combos brs).length = Branches.count brs := by
  intro brs
  match brs with
  | .nil => rfl
  | .cons a rest =>
    simp [Branches.combos, Branches.count, Arr.combos_length a,
      Branches.combosB_length rest]
end

/-! ### `current` renders the combination at the enumeration index -/

mutual
theorem Arr.current_spec : ∀ a : Arr, Arr.ok a = true →
    Arr.current a = (Arr.combos a).getD (Arr.idx a) [] := by
  intro a hok
  match a with
  | .nil => rfl
  | .cons (.lit s) rest =>
    have hrest : Arr.ok rest = true := by simpa [Arr.ok] using hok
    have hlt : Arr.idx rest < (Arr.combos rest).length := by
      rw [Arr.combos_length]
      exact Arr.idx_lt rest hrest
    simp only [Arr.current, Arr.combos, Arr.idx]
    rw [getD_map_append _ _ _ hlt, Arr.current_spec rest hrest]
  | .cons (.grp pos brs) rest =>
    simp only [Arr.ok, Bool.and_eq_true, decide_eq_true_eq] at hok
    obtain ⟨⟨hpos, hokAt⟩, hrest⟩ := hok
    have hBlt : Branches.idxAt pos brs < (Branches.combos brs).length := by
      rw [Branches.combosB_length]
      exact Branches.idxAt_lt pos brs hokAt hpos
    have hRlt : Arr.idx rest < (Arr.combos rest).length := by
      rw [Arr.combos_length]
      exact Arr.idx_lt rest hrest
    have hcB : (Branches.combos brs).length = Branches.count brs :=
      Branches.combosB_length brs
    simp only [Arr.current, Arr.combos, Arr.idx]
    rw [show Branches.idxAt pos brs + Branches.count brs * Arr.idx rest =
        Branches.idxAt pos brs + (Branches.combos brs).length * Arr.idx rest by
      rw [hcB]]
    rw [getD_flatMap_map _ _ _ _ hBlt hRlt]
    rw [Branches.currentAt_spec pos brs hokAt hpos, Arr.current_spec rest hrest]
theorem Branches.currentAt_spec : ∀ (pos : Nat) (brs : Branches),
    Branches.okAt pos brs = true → pos < Branches.length brs →
    Branches.currentAt pos brs =
      (Branches.combos brs).getD (Branches.idxAt pos brs) [] := by
  intro pos brs hokAt hlen
  match pos, brs with
  | _, .nil => simp [Branches.length] at hlen
  | 0, .cons a rest =>
    simp only [Branches.okAt, Bool.and_eq_true] at hokAt
    have hlt : Arr.idx a < (Arr.combos a).length := by
      rw [Arr.combos_length]
      exact Arr.idx_lt a hokAt.1
    simp only [Branches.currentAt, Branches.combos, Branches.idxAt]
    rw [getD_append_of_lt _ _ _ _ hlt]
    exact Arr.current_spec a hokAt.1
  | n + 1, .cons a rest =>
    simp only [Branches.okAt, Bool.and_eq_true, decide_eq_true_eq] at hokAt
    have hlen2 : n < Branches.length rest := by
      simpa [Branches.length, Nat.add_lt_add_iff_right] using hlen
    simp only [Branches.currentAt, Branches.combos, Branches.idxAt]
    rw [show Arr.count a + Branches.idxAt n rest =
        (Arr.combos a).length + Branches.idxAt n rest by rw [Arr.combos_length]]
    rw [getD_append_add]
    exact Branches.currentAt_spec n rest hokAt.2 hlen2
end

/-! ### The generator loop yields exactly the remaining combinations -/

/-- Running the do/while loop from a well-formed state with fuel equal to
the number of remaining combinations yields exactly those combinations, in
order.  In particular the loop stops by itself: `next` returns `false` at
the final combination. -/
theorem genFuel_eq : ∀ (f : Nat) (a : Arr), Arr.ok a = true →
    f = Arr.count a - Arr.idx a →
    genFuel f a = (Arr.combos a).drop (Arr.idx a) := by
  intro f
  induction f with
  | zero =>
    intro a hok hf
    have := Arr.idx_lt a hok
    omega
  | succ n ih =>
    intro a hok hf
    have hlt := Arr.idx_lt a hok
    obtain ⟨hok', hcnt, hcmb, hbool, hidx⟩ := Arr.next_spec a hok
    have hlen : (Arr.combos a).length = Arr.count a := Arr.combos_length a
    have hcur : Arr.current a = (Arr.combos a).getD (Arr.idx a) [] :=
      Arr.current_spec a hok
    have hget : (Arr.combos a).getD (Arr.idx a) [] =
        (Arr.combos a).get ⟨Arr.idx a, by omega⟩ := by
      rw [List.getD_eq_getElem?_getD, List.getElem?_eq_getElem (by omega)]
      rfl
    have hdrop : (Arr.combos a).drop (Arr.idx a) =
        (Arr.combos a).get ⟨Arr.idx a, by omega⟩ ::
          (Arr.combos a).drop (Arr.idx a + 1) :=
      List.drop_eq_getElem_cons (by omega)
    by_cases hc : Arr.idx a + 1 < Arr.count a
    · have hb : (Arr.next a).2 = true := by rw [hbool]; simp [hc]
      rw [if_pos hc] at hidx
      have hrec : genFuel n (Arr.next a).1 =
          (Arr.combos a).drop (Arr.idx a + 1) := by
        rw [← hcmb, ← hidx]
        exact ih (Arr.next a).1 hok' (by rw [hcnt, hidx]; omega)
      simp only [genFuel, hb, if_true]
      rw [hrec, hdrop, hcur, hget]
    · have hb : (Arr.next a).2 = false := by rw [hbool]; simp [hc]
      have hend : Arr.idx a + 1 = Arr.count a := by omega
      simp only [genFuel, hb, Bool.false_eq_true, if_false]
      rw [hdrop, hcur, hget]
      rw [show Arr.idx a + 1 = (Arr.combos a).length by omega, List.drop_length]
/-! ### The parser produces well-formed initial states -/

/-- The comma-splitting loop always returns at least one segment (the
final `values.push(...)` of source line 171). -/
theorem scanVar_ne_nil : ∀ (cs : List Char) (values : List (List Char))
    (value : List Char) (skip : Int), scanVar values value skip cs ≠ [] := by
  intro cs
  induction cs with
  | nil =>
    intro values value skip
    simp [scanVar]
  | cons c rest ih =>
    intro values value skip
    simp only [scanVar]
    split
    · exact ih _ _ _
    · exact ih _ _ _

mutual
theorem getArray_ok : ∀ (f : Nat) (cs : List Char) (ae : Bool),
    Arr.ok (getArray f cs ae) = true ∧ Arr.idx (getArray f cs ae) = 0 := by
  intro f cs ae
  match f with
  | 0 => exact ⟨rfl, rfl⟩
  | f + 1 => simpa [getArray] using buildArr_ok f (scanArr ae [] [] 0 cs)
theorem buildArr_ok : ∀ (f : Nat) (toks : List Tok),
    Arr.ok (buildArr f toks) = true ∧ Arr.idx (buildArr f toks) = 0 := by
  intro f toks
  match f, toks with
  | f, [] => simp [buildArr, Arr.ok, Arr.idx]
  | 0, t :: rest => simp [buildArr, Arr.ok, Arr.idx]
  | f + 1, .lit s :: rest =>
    have ih := buildArr_ok f rest
    simp [buildArr, Arr.ok, Arr.idx, ih.1, ih.2]
  | f + 1, .grp s :: rest =>
    obtain ⟨brs, hb, hini, hlen⟩ := getVariants_ok f s
    have ih := buildArr_ok f rest
    simp [buildArr, Arr.ok, Arr.idx, hb, ih.1, ih.2, hlen,
      Branches.okInit_okAt 0 brs hini, Branches.idxAt_of_okInit 0 brs hini,
      Branches.prefC_zero]
theorem getVariants_ok : ∀ (f : Nat) (cs : List Char),
    ∃ brs, getVariants f cs = .grp 0 brs ∧ Branches.okInit brs = true ∧
      0 < Branches.length brs := by
  intro f cs
  match f with
  | 0 =>
    refine ⟨.cons .nil .nil, rfl, by decide, by decide⟩
  | f + 1 =>
    have hb := buildBr_ok f (scanVar [] [] 0 cs)
    exact ⟨buildBr f (scanVar [] [] 0 cs), by simp [getVariants], hb.1,
      hb.2 (scanVar_ne_nil cs [] [] 0)⟩
theorem buildBr_ok : ∀ (f : Nat) (segs : List (List Char)),
    Branches.okInit (buildBr f segs) = true ∧
      (segs ≠ [] → 0 < Branches.length (buildBr f segs)) := by
  intro f segs
  match f, segs with
  | f, [] =>
    refine ⟨by simp [buildBr, Branches.okInit], fun h => absurd rfl h⟩
  | 0, s :: rest =>
    refine ⟨by simp [buildBr]; decide, fun _ => by simp [buildBr, Branches.length]⟩
  | f + 1, s :: rest =>
    have iha := getArray_ok f s true
    have ih := buildBr_ok f rest
    refine ⟨?_, fun _ => by simp [buildBr, Branches.length]⟩
    simp [buildBr, Branches.okInit, iha.1, iha.2, ih.1]
end

/-! ### The scanning loop on brace-free input -/

/-- On input containing no braces, the `getArray` loop only extends the
current fragment and finally pushes it (when nonempty or `addEmpty`). -/
theorem scanArr_noBrace : ∀ (cs : List Char) (values : List Tok)
    (value : List Char) (skip : Int) (ae : Bool),
    (∀ c ∈ cs, c ≠ '\x7b' ∧ c ≠ '\x7d') →
    scanArr ae values value skip cs =
      values ++
        (if value ++ cs ≠ [] ∨ ae = true then [Tok.lit (value ++ cs)] else []) := by
  intro cs
  induction cs with
  | nil =>
    intro values value skip ae h
    simp [scanArr]
  | cons c rest ih =>
    intro values value skip ae h
    have hc := h c (by simp)
    have hrest : ∀ x ∈ rest, x ≠ '\x7b' ∧ x ≠ '\x7d' :=
      fun x hx => h x (by simp [hx])
    simp only [scanArr, if_neg hc.2, if_neg hc.1]
    rw [ih (values) (value ++ [c]) skip ae hrest]
    have hne : value ++ c :: rest ≠ [] := by simp
    have hne2 : (value ++ [c]) ++ rest ≠ [] := by simp
    rw [if_pos (Or.inl hne2), if_pos (Or.inl hne)]
    simp

/-! ### Main characterization of `expandBraces` -/

/-- `expandBraces` yields exactly the combination list of the parsed
structure (the cross product of the alternatives, leftmost group varying
fastest), and hence exactly `Arr.count` strings — the product, over all
groups, of their branch counts, branches counted recursively. -/
theorem expandBraces_eq_combos (s : String) :
    expandBraces s =
      (Arr.combos (getArray (expandFuel s.toList) s.toList false)).map String.mk ∧
    (expandBraces s).length =
      Arr.count (getArray (expandFuel s.toList) s.toList false) := by
  have hok := getArray_ok (expandFuel s.toList) s.toList false
  have hgen : genFuel (Arr.count (getArray (expandFuel s.toList) s.toList false))
      (getArray (expandFuel s.toList) s.toList false) =
      Arr.combos (getArray (expandFuel s.toList) s.toList false) := by
    rw [genFuel_eq _ _ hok.1 (by rw [hok.2]; omega), hok.2, List.drop_zero]
  constructor
  · simp only [expandBraces]
    rw [hgen]
  · simp only [expandBraces]
    rw [hgen, List.length_map, Arr.combos_length]

/-- C1: for every template string (balanced braces included), the number
of strings yielded by `expandBraces` equals the product, over the parsed
groups, of their alternative counts (`Arr.count`, which counts a group as
the sum of the recursively counted combinations of its branches), and the
enumeration is exactly the combination list `Arr.combos` — exhaustive and
without duplicates beyond those the input itself specifies. -/
theorem expandBraces_complete : ∀ s : String,
    expandBraces s =
      (Arr.combos (getArray (expandFuel s.toList) s.toList false)).map String.mk ∧
    (expandBraces s).length =
      Arr.count (getArray (expandFuel s.toList) s.toList false) :=
  fun s => expandBraces_eq_combos s

/-- C9: `expandBraces` is deterministic and restartable.  In this pure
embedding each invocation rebuilds its state from the input alone
(mirroring `new getArray(str, false)` on source line 189), so two
invocations on the same string are the same finite list — whose length the
second conjunct pins down as the total combination count. -/
theorem expandBraces_deterministic : ∀ s : String,
    expandBraces s = expandBraces s ∧
    (expandBraces s).length =
      Arr.count (getArray (expandFuel s.toList) s.toList false) :=
  fun s => ⟨rfl, (expandBraces_eq_combos s).2⟩

/-- C3: on an input containing no brace characters at all, `expandBraces`
yields exactly one string: the input, unchanged. -/
theorem expandBraces_noGroups : ∀ s : String,
    (∀ c ∈ s.toList, c ≠ '\x7b' ∧ c ≠ '\x7d') → expandBraces s = [s] := by
  intro s h
  have hmk : String.mk s.toList = s := by cases s; rfl
  have hscan := scanArr_noBrace s.toList [] [] 0 false h
  simp only [List.nil_append] at hscan
  obtain ⟨k, hk⟩ : ∃ k, expandFuel s.toList = (k + 1) + 1 :=
    ⟨s.toList.length * s.toList.length + 6 * s.toList.length + 7, by
      simp only [expandFuel]
      ring⟩
  simp only [expandBraces]
  rw [hk]
  rw [show getArray (k + 1 + 1) s.toList false =
      buildArr (k + 1) (scanArr false [] [] 0 s.toList) from rfl]
  rw [hscan]
  by_cases hnil : s.toList = []
  · rw [hnil]
    rw [show (if ([] : List Char) ≠ [] ∨ false = true
        then [Tok.lit ([] : List Char)] else []) = [] by simp]
    rw [show buildArr (k + 1) [] = Arr.nil by simp [buildArr]]
    rw [← hmk, hnil]
    rfl
  · rw [if_pos (Or.inl hnil)]
    rw [show buildArr (k + 1) [Tok.lit s.toList] =
        Arr.cons (.lit s.toList) Arr.nil by simp [buildArr]]
    rw [show Arr.count (Arr.cons (.lit s.toList) Arr.nil) = 1 from rfl]
    rw [show genFuel 1 (Arr.cons (.lit s.toList) Arr.nil) =
        [s.toList ++ []] by simp [genFuel, Arr.next, Arr.current]]
    simp [hmk]

/-- Witness for C3 at the source's own example input `"nothing to do"`. -/
theorem expandBraces_noGroups_witness :
    (∀ c ∈ ("nothing to do").toList, c ≠ '\x7b' ∧ c ≠ '\x7d') ∧
    expandBraces "nothing to do" = ["nothing to do"] :=
  ⟨by decide, expandBraces_noGroups "nothing to do" (by decide)⟩
